import Mathlib

/-
  Verification of the message-framing core of `pymisclib`
  (`chunkystreamsocket.py`: `ChunkyStreamSocket.send`, `.recv`,
  `.recv_to_separator`).

  The socket is modelled as a scripted transport: a list of read events
  (each either a delivered byte chunk or a timeout) for the receive side,
  and a list of per-call accepted write counts for the send side.  Bytes
  are `List Nat`.  The `_backlog_bytes` field is an `Option` of bytes,
  exactly like the Python `None`-or-`bytes` attribute.  Python exceptions
  (`RuntimeError("socket connection broken")`, `socket.timeout`) become
  constructors of `Outcome`; `blocked` stands for a read/write on an
  exhausted script, i.e. a call that would block forever.
-/

namespace ChunkySocket

/-- Byte strings are lists of byte values. -/
abbrev Bytes := List Nat

/-- The bytes held by an optional backlog buffer (`None` holds no bytes). -/
def optBytes : Option Bytes → Bytes
  | none => []
  | some b => b

/-- One result of a call to the underlying transport read
(`socket.recv`): either a delivered chunk of bytes (empty = orderly
peer shutdown) or a timeout exception. -/
inductive ReadEvent where
  | bytes (b : Bytes)
  | timeout
deriving DecidableEq

/-- Record of one completed underlying transport read: the number of
bytes requested and the bytes obtained. -/
structure ReadLog where
  requested : Nat
  got : Bytes
deriving DecidableEq

/-- The bytes obtained by a sequence of transport reads, in order. -/
def flattenLog (log : List ReadLog) : Bytes :=
  (log.map ReadLog.got).flatten

/-- How a call ends: a returned value, the
`RuntimeError("socket connection broken")` raise, the propagated
`socket.timeout` raise, or blocking forever on an exhausted script. -/
inductive Outcome (α : Type) where
  | ok (v : α)
  | broken
  | timedOut
  | blocked
deriving DecidableEq

/-- The per-instance state visible across calls: the `_backlog_bytes`
field together with the not-yet-consumed transport read script. -/
structure SockState where
  backlog : Option Bytes
  input : List ReadEvent
deriving DecidableEq

/-- Result of one receive call: the outcome, the `_backlog_bytes` field
after the call (also after a raise), the remaining transport script, and
the log of the transport reads the call performed. -/
structure RunResult where
  outcome : Outcome Bytes
  backlog : Option Bytes
  input : List ReadEvent
  log : List ReadLog
deriving DecidableEq

/-- Python slice `m[i:]` for an arbitrary (possibly negative) `Int`
index, with Python's clamping semantics. -/
def pySliceFrom (m : Bytes) (i : Int) : Bytes :=
  if i < 0 then m.drop ((m.length : Int) + i).toNat else m.drop i.toNat

/-- Python slice `m[:i]` for an arbitrary (possibly negative) `Int`
index, with Python's clamping semantics. -/
def pySliceTo (m : Bytes) (i : Int) : Bytes :=
  if i < 0 then m.take ((m.length : Int) + i).toNat else m.take i.toNat

/-- Whether `sep` occurs in `m` starting at index `i`
(for the empty `sep`: any `i ≤ m.length`, as in Python `bytes.find`). -/
def matchAt (m sep : Bytes) (i : Nat) : Bool :=
  decide (i ≤ m.length) && ((m.drop i).take sep.length == sep)

/-- Smallest index `i` in `[start, start+cnt)` with `p i = true`. -/
def findFrom (p : Nat → Bool) (start : Nat) : Nat → Option Nat
  | 0 => none
  | cnt + 1 => if p start then some start else findFrom p (start + 1) cnt

/-- Python `m.find(sep, start)`: lowest index `≥ start` of an occurrence
of `sep` in `m`, and `-1` when there is none. -/
def bytesFind (m sep : Bytes) (start : Nat) : Int :=
  match findFrom (fun i => matchAt m sep i) start (m.length + 1 - start) with
  | some i => (i : Int)
  | none => -1

/-- One iteration of the `recv_to_separator` loop after a chunk was
obtained (lines 220-232 of `chunkystreamsocket.py`): append the chunk to
the accumulation, search for `separator` from `start_search_index`; on a
hit return the message and the new backlog, otherwise return the grown
accumulation and the new search index
`max(0, len(msg_bytes) - (len(separator) - 1))`. -/
def sepChunkStep (sep chunk msg : Bytes) (ss : Nat) :
    (Bytes × Option Bytes) ⊕ (Bytes × Nat) :=
  let m2 := msg ++ chunk
  let i := bytesFind m2 sep ss
  if i > -1 then
    Sum.inl (m2.take i.toNat, some (m2.drop (i.toNat + sep.length)))
  else
    Sum.inr (m2, (max 0 ((m2.length : Int) - ((sep.length : Int) - 1))).toNat)

/-- The `while True` loop of `recv_to_separator` from the point where
every chunk comes from the transport.  `blR` is the raise-time value of
`_backlog_bytes` (the Python loop leaves the field untouched on the
transport branch: `None` once a non-empty backlog was consumed, or a
left-over empty backlog). -/
def recvSepLoop (sep : Bytes) (blR : Option Bytes) :
    List ReadEvent → Bytes → Nat → RunResult
  | [], _, _ => ⟨.blocked, blR, [], []⟩
  | .timeout :: rest, _, _ => ⟨.timedOut, blR, rest, []⟩
  | .bytes b :: rest, msg, ss =>
    if b.isEmpty then ⟨.broken, blR, rest, [⟨4096, b⟩]⟩
    else
      match sepChunkStep sep b msg ss with
      | .inl (res, nb) => ⟨.ok res, nb, rest, [⟨4096, b⟩]⟩
      | .inr (m2, ss2) =>
        let r := recvSepLoop sep blR rest m2 ss2
        ⟨r.outcome, r.backlog, r.input, ⟨4096, b⟩ :: r.log⟩

/-- Model of `ChunkyStreamSocket.recv_to_separator` (lines 183-236).  The first
loop iteration consumes the backlog when it is present and non-empty
(line 207); an absent or empty backlog sends the loop to the transport,
the empty backlog staying in the field until a separator hit overwrites
it. -/
def recv_to_separator (sep : Bytes) (s : SockState) : RunResult :=
  match s.backlog with
  | none => recvSepLoop sep none s.input [] 0
  | some b =>
    if b.isEmpty then recvSepLoop sep s.backlog s.input [] 0
    else
      match sepChunkStep sep b [] 0 with
      | .inl (res, nb) => ⟨.ok res, nb, s.input, []⟩
      | .inr (m2, ss2) => recvSepLoop sep none s.input m2 ss2

/-- Outcome of the `recv` read loop: no backlog is recorded because
`recv` clears the field at entry and reinstalls one only after the loop. -/
structure LoopOut where
  outcome : Outcome Bytes
  input : List ReadEvent
  log : List ReadLog
deriving DecidableEq

/-- The `while nr_received < length` loop of `recv` (lines 162-170):
request `min(length - nr_received, 4096)` bytes, fail on an empty chunk,
otherwise accumulate and continue. -/
def recvLoop (len : Int) (input : List ReadEvent) (nr : Nat) (acc : Bytes) :
    LoopOut :=
  if (nr : Int) < len then
    match input with
    | [] => ⟨.blocked, [], []⟩
    | .timeout :: rest => ⟨.timedOut, rest, []⟩
    | .bytes b :: rest =>
      let req := (min (len - (nr : Int)) 4096).toNat
      if b.isEmpty then ⟨.broken, rest, [⟨req, b⟩]⟩
      else
        let r := recvLoop len rest (nr + b.length) (acc ++ b)
        ⟨r.outcome, r.input, ⟨req, b⟩ :: r.log⟩
  else ⟨.ok acc, input, []⟩

/-- Model of `ChunkyStreamSocket.recv` (lines 130-181): seed the accumulation
with the consumed backlog, run the read loop, then split off a new
backlog when the accumulation exceeds `length` (Python slicing, so a
negative `length` slices from the end). -/
def recv (len : Int) (s : SockState) : RunResult :=
  let acc0 := optBytes s.backlog
  let r := recvLoop len s.input acc0.length acc0
  match r.outcome with
  | .ok msg =>
    if (msg.length : Int) > len then
      ⟨.ok (pySliceTo msg len), some (pySliceFrom msg len), r.input, r.log⟩
    else ⟨.ok msg, none, r.input, r.log⟩
  | o => ⟨o, none, r.input, r.log⟩

/-- The `while total_nr_sent < len(msg_bytes)` loop of `send`
(lines 119-125) over a script of per-call accepted byte counts. -/
def sendLoop (msgLen : Nat) (writes : List Nat) (total : Nat) :
    Outcome Nat × List Nat :=
  if total < msgLen then
    match writes with
    | [] => (.blocked, [])
    | w :: rest =>
      if w = 0 then (.broken, rest) else sendLoop msgLen rest (total + w)
  else (.ok total, writes)

/-- Model of `ChunkyStreamSocket.send` (lines 106-128): only the accepted byte
counts matter for the control flow, so the transport is a script of
counts. -/
def send (msg : Bytes) (writes : List Nat) : Outcome Nat × List Nat :=
  sendLoop msg.length writes 0

/-- One receive call of either kind, for reasoning about call sequences
on one instance. -/
inductive Call where
  | recvN (len : Int)
  | recvSep (sep : Bytes)
deriving DecidableEq

/-- Run one call against a state. -/
def Call.run (c : Call) (s : SockState) : RunResult :=
  match c with
  | .recvN len => recv len s
  | .recvSep sep => recv_to_separator sep s

/-- The separator a call consumes from the stream (none for `recv`). -/
def Call.sepBytes : Call → Bytes
  | .recvN _ => []
  | .recvSep sep => sep

/-- Run a sequence of receive calls on one instance, threading the
backlog and the transport script; `none` as soon as one call does not
return normally. -/
def runCalls : List Call → SockState → Option (List Bytes × SockState × List ReadLog)
  | [], s => some ([], s, [])
  | c :: cs, s =>
    match (c.run s).outcome with
    | .ok v =>
      match runCalls cs ⟨(c.run s).backlog, (c.run s).input⟩ with
      | some (outs, s2, log) => some (v :: outs, s2, (c.run s).log ++ log)
      | none => none
    | _ => none

/-! ### Facts about the search primitives -/

theorem matchAt_iff {m sep : Bytes} {i : Nat} :
    matchAt m sep i = true ↔ i ≤ m.length ∧ (m.drop i).take sep.length = sep := by
  simp [matchAt]

theorem matchAt_le {m sep : Bytes} {i : Nat} (h : matchAt m sep i = true) :
    i + sep.length ≤ m.length := by
  rcases matchAt_iff.mp h with ⟨h1, h2⟩
  have := congrArg List.length h2
  simp [List.length_take, List.length_drop] at this
  omega

theorem matchAt_append_left {m t sep : Bytes} {i : Nat}
    (h : matchAt m sep i = true) : matchAt (m ++ t) sep i = true := by
  have hle := matchAt_le h
  rcases matchAt_iff.mp h with ⟨h1, h2⟩
  refine matchAt_iff.mpr ⟨by simp only [List.length_append]; omega, ?_⟩
  rw [List.drop_append_of_le_length h1, List.take_append_of_le_length (by
    simp only [List.length_drop]; omega)]
  exact h2

theorem matchAt_append_sep (sep pre suf : Bytes) :
    matchAt (pre ++ sep ++ suf) sep pre.length = true := by
  refine matchAt_iff.mpr ⟨by simp only [List.length_append]; omega, ?_⟩
  rw [show pre ++ sep ++ suf = pre ++ (sep ++ suf) by simp,
    List.drop_left pre (sep ++ suf), List.take_left sep suf]

theorem matchAt_split {m sep : Bytes} {i : Nat} (h : matchAt m sep i = true) :
    m.take i ++ sep ++ m.drop (i + sep.length) = m := by
  rcases matchAt_iff.mp h with ⟨h1, h2⟩
  conv_rhs => rw [← List.take_append_drop i m]
  rw [List.append_assoc]
  congr 1
  conv_rhs => rw [← List.take_append_drop sep.length (m.drop i)]
  rw [h2, List.drop_drop]

theorem findFrom_eq_none {p : Nat → Bool} :
    ∀ {cnt start : Nat}, (∀ j, start ≤ j → j < start + cnt → p j = false) →
      findFrom p start cnt = none := by
  intro cnt
  induction cnt with
  | zero => intro start _; rfl
  | succ n ih =>
    intro start h
    have h0 : p start = false := h start (Nat.le_refl _) (by omega)
    simp [findFrom, h0]
    exact ih fun j hj1 hj2 => h j (by omega) (by omega)

theorem findFrom_first {p : Nat → Bool} :
    ∀ {cnt start tgt : Nat}, start ≤ tgt → tgt < start + cnt → p tgt = true →
      (∀ j, j < tgt → p j = false) → findFrom p start cnt = some tgt := by
  intro cnt
  induction cnt with
  | zero => intro start tgt h1 h2; omega
  | succ n ih =>
    intro start tgt h1 h2 h3 h4
    by_cases hs : start = tgt
    · subst hs; simp [findFrom, h3]
    · have : p start = false := h4 start (by omega)
      simp [findFrom, this]
      exact ih (by omega) (by omega) h3 h4

theorem findFrom_some {p : Nat → Bool} :
    ∀ {cnt start i : Nat}, findFrom p start cnt = some i →
      p i = true ∧ start ≤ i ∧ i < start + cnt := by
  intro cnt
  induction cnt with
  | zero => intro start i h; simp [findFrom] at h
  | succ n ih =>
    intro start i h
    by_cases hs : p start = true
    · simp [findFrom, hs] at h
      subst h
      exact ⟨hs, Nat.le_refl _, by omega⟩
    · simp [findFrom, hs] at h
      obtain ⟨h1, h2, h3⟩ := ih h
      exact ⟨h1, by omega, by omega⟩

theorem bytesFind_eq_of_first {m sep : Bytes} {start tgt : Nat}
    (h1 : start ≤ tgt) (h2 : matchAt m sep tgt = true)
    (h3 : ∀ j, j < tgt → matchAt m sep j = false) :
    bytesFind m sep start = (tgt : Int) := by
  have htgt : tgt ≤ m.length := (matchAt_iff.mp h2).1
  rw [bytesFind, findFrom_first h1 (by omega) h2 h3]

theorem bytesFind_eq_neg_one {m sep : Bytes} (start : Nat)
    (h : ∀ j, matchAt m sep j = false) : bytesFind m sep start = -1 := by
  rw [bytesFind, findFrom_eq_none fun j _ _ => h j]

theorem bytesFind_matchAt {m sep : Bytes} {start : Nat}
    (h : bytesFind m sep start > -1) :
    matchAt m sep (bytesFind m sep start).toNat = true := by
  unfold bytesFind at h ⊢
  cases hf : findFrom (fun i => matchAt m sep i) start (m.length + 1 - start) with
  | none => simp only [hf] at h; exact absurd h (by omega)
  | some i =>
    simp only [hf] at h ⊢
    simpa using (findFrom_some hf).1

/-! ### Facts about Python slicing -/

theorem pySlice_append (m : Bytes) (i : Int) :
    pySliceTo m i ++ pySliceFrom m i = m := by
  rw [pySliceTo, pySliceFrom]
  by_cases h : i < 0 <;> simp [h, List.take_append_drop]

theorem pySliceTo_nonneg (m : Bytes) {i : Int} (h : 0 ≤ i) :
    pySliceTo m i = m.take i.toNat := by
  rw [pySliceTo, if_neg (by omega)]

theorem pySliceFrom_nonneg (m : Bytes) {i : Int} (h : 0 ≤ i) :
    pySliceFrom m i = m.drop i.toNat := by
  rw [pySliceFrom, if_neg (by omega)]

/-! ### Small computation rules -/

theorem flattenLog_nil : flattenLog [] = [] := rfl

theorem flattenLog_cons (e : ReadLog) (l : List ReadLog) :
    flattenLog (e :: l) = e.got ++ flattenLog l := by
  simp [flattenLog]

theorem flattenLog_append (l1 l2 : List ReadLog) :
    flattenLog (l1 ++ l2) = flattenLog l1 ++ flattenLog l2 := by
  simp [flattenLog]

@[simp] theorem optBytes_none : optBytes none = [] := rfl

@[simp] theorem optBytes_some (b : Bytes) : optBytes (some b) = b := rfl

theorem pySliceTo_zero (m : Bytes) : pySliceTo m 0 = [] := by
  rw [pySliceTo_nonneg m (by omega)]
  rfl

theorem pySliceFrom_zero (m : Bytes) : pySliceFrom m 0 = m := by
  rw [pySliceFrom_nonneg m (by omega)]
  rfl

/-! ### Unfolding rules for the recv read loop -/

theorem recvLoop_done {len : Int} {input : List ReadEvent} {nr : Nat} {acc : Bytes}
    (h : ¬ (nr : Int) < len) : recvLoop len input nr acc = ⟨.ok acc, input, []⟩ := by
  unfold recvLoop
  rw [if_neg h]

theorem recvLoop_nil {len : Int} {nr : Nat} {acc : Bytes} (h : (nr : Int) < len) :
    recvLoop len [] nr acc = ⟨.blocked, [], []⟩ := by
  unfold recvLoop
  rw [if_pos h]

theorem recvLoop_timeout {len : Int} {rest : List ReadEvent} {nr : Nat} {acc : Bytes}
    (h : (nr : Int) < len) :
    recvLoop len (.timeout :: rest) nr acc = ⟨.timedOut, rest, []⟩ := by
  unfold recvLoop
  rw [if_pos h]

theorem recvLoop_bytes_empty {len : Int} {rest : List ReadEvent} {nr : Nat} {acc : Bytes}
    (h : (nr : Int) < len) :
    recvLoop len (.bytes [] :: rest) nr acc =
      ⟨.broken, rest, [⟨(min (len - (nr : Int)) 4096).toNat, []⟩]⟩ := by
  unfold recvLoop
  rw [if_pos h]
  rfl

theorem recvLoop_bytes {len : Int} {b : Bytes} {rest : List ReadEvent} {nr : Nat}
    {acc : Bytes} (h : (nr : Int) < len) (hb : b ≠ []) :
    recvLoop len (.bytes b :: rest) nr acc =
      ⟨(recvLoop len rest (nr + b.length) (acc ++ b)).outcome,
       (recvLoop len rest (nr + b.length) (acc ++ b)).input,
       ⟨(min (len - (nr : Int)) 4096).toNat, b⟩ ::
         (recvLoop len rest (nr + b.length) (acc ++ b)).log⟩ := by
  conv_lhs => unfold recvLoop
  rw [if_pos h]
  have hbe : b.isEmpty = false := by simpa [List.isEmpty_iff] using hb
  simp [hbe]

/-- The loop with the over-read split, as `recv` runs it. -/
def recvLoopOf (len : Int) (s : SockState) : LoopOut :=
  recvLoop len s.input (optBytes s.backlog).length (optBytes s.backlog)

theorem recv_eq (len : Int) (s : SockState) :
    recv len s =
      match (recvLoopOf len s).outcome with
      | .ok msg =>
        if (msg.length : Int) > len then
          ⟨.ok (pySliceTo msg len), some (pySliceFrom msg len),
            (recvLoopOf len s).input, (recvLoopOf len s).log⟩
        else ⟨.ok msg, none, (recvLoopOf len s).input, (recvLoopOf len s).log⟩
      | o => ⟨o, none, (recvLoopOf len s).input, (recvLoopOf len s).log⟩ := rfl

/-! ### Behaviour of the recv read loop -/

theorem recvLoop_ok_spec {len : Int} :
    ∀ (input : List ReadEvent) (acc : Bytes) {v : Bytes},
      (recvLoop len input acc.length acc).outcome = .ok v →
      v = acc ++ flattenLog (recvLoop len input acc.length acc).log ∧
        len ≤ (v.length : Int) := by
  intro input
  induction input with
  | nil =>
    intro acc v hok
    by_cases h : (acc.length : Int) < len
    · rw [recvLoop_nil h] at hok; exact absurd hok (by simp)
    · rw [recvLoop_done h] at hok ⊢
      simp at hok
      subst hok
      exact ⟨by simp [flattenLog_nil], by omega⟩
  | cons e rest ih =>
    intro acc v hok
    by_cases h : (acc.length : Int) < len
    · cases e with
      | timeout => rw [recvLoop_timeout h] at hok; exact absurd hok (by simp)
      | bytes b =>
        rcases eq_or_ne b [] with hb | hb
        · subst hb
          rw [recvLoop_bytes_empty h] at hok
          exact absurd hok (by simp)
        · rw [recvLoop_bytes h hb] at hok ⊢
          simp only at hok
          have hlen2 : acc.length + b.length = (acc ++ b).length := by
            simp [List.length_append]
          rw [hlen2] at hok
          obtain ⟨h1, h2⟩ := ih (acc ++ b) hok
          refine ⟨?_, h2⟩
          simp only [flattenLog_cons]
          rw [hlen2, h1]
          simp
    · rw [recvLoop_done h] at hok ⊢
      simp at hok
      subst hok
      exact ⟨by simp [flattenLog_nil], by omega⟩

theorem recvLoop_req_spec {len : Int} :
    ∀ (input : List ReadEvent) (nr : Nat) (acc : Bytes) (p : List ReadLog)
      (e : ReadLog) (q : List ReadLog),
      (recvLoop len input nr acc).log = p ++ e :: q →
      (e.requested : Int) = min (len - ((nr : Int) + ((flattenLog p).length : Int))) 4096 := by
  intro input
  induction input with
  | nil =>
    intro nr acc p e q hl
    by_cases h : (nr : Int) < len
    · rw [recvLoop_nil h] at hl; simp at hl
    · rw [recvLoop_done h] at hl; simp at hl
  | cons ev rest ih =>
    intro nr acc p e q hl
    by_cases h : (nr : Int) < len
    · cases ev with
      | timeout => rw [recvLoop_timeout h] at hl; simp at hl
      | bytes b =>
        rcases eq_or_ne b [] with hb | hb
        · subst hb
          rw [recvLoop_bytes_empty h] at hl
          rcases p with _ | ⟨p0, p'⟩
          · simp at hl
            rw [← hl.1]
            dsimp only
            simp only [flattenLog_nil, List.length_nil, Nat.cast_zero, add_zero]
            omega
          · simp at hl
        · rw [recvLoop_bytes h hb] at hl
          simp only [List.cons_append] at hl
          rcases p with _ | ⟨p0, p'⟩
          · simp only [List.nil_append, List.cons.injEq] at hl
            rw [← hl.1]
            dsimp only
            simp only [flattenLog_nil, List.length_nil, Nat.cast_zero, add_zero]
            omega
          · simp only [List.cons_append, List.cons.injEq] at hl
            have := ih (nr + b.length) (acc ++ b) p' e q hl.2
            rw [this, ← hl.1]
            congr 1
            simp only [flattenLog_cons, List.length_append]
            push_cast
            ring
    · rw [recvLoop_done h] at hl; simp at hl

theorem recvLoop_broken_iff {len : Int} :
    ∀ (input : List ReadEvent) (nr : Nat) (acc : Bytes),
      (recvLoop len input nr acc).outcome = .broken ↔
        ∃ e ∈ (recvLoop len input nr acc).log, e.got = [] := by
  intro input
  induction input with
  | nil =>
    intro nr acc
    by_cases h : (nr : Int) < len
    · rw [recvLoop_nil h]; simp
    · rw [recvLoop_done h]; simp
  | cons ev rest ih =>
    intro nr acc
    by_cases h : (nr : Int) < len
    · cases ev with
      | timeout => rw [recvLoop_timeout h]; simp
      | bytes b =>
        rcases eq_or_ne b [] with hb | hb
        · subst hb
          rw [recvLoop_bytes_empty h]
          simp
        · rw [recvLoop_bytes h hb]
          simp only []
          rw [ih (nr + b.length) (acc ++ b)]
          constructor
          · rintro ⟨e, he, hg⟩
            exact ⟨e, by simp [he], hg⟩
          · rintro ⟨e, he, hg⟩
            simp only [List.mem_cons] at he
            rcases he with he | he
            · exact absurd hg (by rw [he]; exact hb)
            · exact ⟨e, he, hg⟩
    · rw [recvLoop_done h]; simp

theorem recvLoop_le {len : Int} :
    ∀ (input : List ReadEvent) (acc : Bytes) {v : Bytes},
      (acc.length : Int) ≤ len →
      (∀ e ∈ (recvLoop len input acc.length acc).log, e.got.length ≤ e.requested) →
      (recvLoop len input acc.length acc).outcome = .ok v →
      (v.length : Int) ≤ len := by
  intro input
  induction input with
  | nil =>
    intro acc v hle hcomp hok
    by_cases h : (acc.length : Int) < len
    · rw [recvLoop_nil h] at hok; exact absurd hok (by simp)
    · rw [recvLoop_done h] at hok
      simp at hok
      subst hok
      exact hle
  | cons ev rest ih =>
    intro acc v hle hcomp hok
    by_cases h : (acc.length : Int) < len
    · cases ev with
      | timeout => rw [recvLoop_timeout h] at hok; exact absurd hok (by simp)
      | bytes b =>
        rcases eq_or_ne b [] with hb | hb
        · subst hb
          rw [recvLoop_bytes_empty h] at hok
          exact absurd hok (by simp)
        · rw [recvLoop_bytes h hb] at hok hcomp
          simp only at hok hcomp
          have hhead : b.length ≤ (min (len - (acc.length : Int)) 4096).toNat :=
            hcomp ⟨(min (len - (acc.length : Int)) 4096).toNat, b⟩ (by simp)
          have hlen2 : acc.length + b.length = (acc ++ b).length := by
            simp [List.length_append]
          rw [hlen2] at hok hcomp
          refine ih (acc ++ b) ?_ (fun e he => hcomp e (List.mem_cons_of_mem _ he)) hok
          simp only [List.length_append]
          push_cast
          omega
    · rw [recvLoop_done h] at hok
      simp at hok
      subst hok
      exact hle

theorem recvLoop_run_timeout {len : Int} :
    ∀ (pre : List Bytes) (nr : Nat) (acc : Bytes) (rest : List ReadEvent),
      (∀ c ∈ pre, c ≠ []) →
      ((nr : Int) + (pre.flatten.length : Int) < len) →
      (recvLoop len (pre.map .bytes ++ .timeout :: rest) nr acc).outcome = .timedOut := by
  intro pre
  induction pre with
  | nil =>
    intro nr acc rest _ hlt
    simp only [List.flatten_nil, List.length_nil] at hlt
    rw [List.map_nil, List.nil_append, recvLoop_timeout (by omega)]
  | cons c pre' ih =>
    intro nr acc rest hne hlt
    have hc : c ≠ [] := hne c (by simp)
    have hflat : (c :: pre').flatten.length = c.length + pre'.flatten.length := by
      simp [List.length_append]
    rw [hflat] at hlt
    have h : (nr : Int) < len := by push_cast at hlt ⊢; omega
    rw [List.map_cons, List.cons_append, recvLoop_bytes h hc]
    exact ih (nr + c.length) (acc ++ c) rest (fun x hx => hne x (by simp [hx]))
      (by push_cast at hlt ⊢; omega)

/-! ### Behaviour of recv -/

theorem recv_conserve (len : Int) (s : SockState) {v : Bytes}
    (hok : (recv len s).outcome = .ok v) :
    optBytes s.backlog ++ flattenLog (recv len s).log =
      v ++ optBytes (recv len s).backlog := by
  rw [recv_eq] at hok ⊢
  rcases ho : (recvLoopOf len s).outcome with msg | _ | _ | _ <;>
    simp only [ho] at hok ⊢
  case ok =>
    have h1 : msg = optBytes s.backlog ++ flattenLog (recvLoopOf len s).log :=
      (recvLoop_ok_spec s.input (optBytes s.backlog) ho).1
    by_cases hsplit : (msg.length : Int) > len
    · rw [if_pos hsplit] at hok ⊢
      dsimp only at hok ⊢
      simp at hok
      subst hok
      rw [optBytes_some, pySlice_append]
      exact h1.symm
    · rw [if_neg hsplit] at hok ⊢
      dsimp only at hok ⊢
      simp at hok
      subst hok
      rw [optBytes_none, List.append_nil]
      exact h1.symm
  all_goals exact absurd hok (by simp)

theorem recv_ok_length (len : Int) (s : SockState) {v : Bytes} (hlen : 0 ≤ len)
    (hok : (recv len s).outcome = .ok v) : v.length = len.toNat := by
  rw [recv_eq] at hok
  rcases ho : (recvLoopOf len s).outcome with msg | _ | _ | _ <;>
    simp only [ho] at hok
  case ok =>
    obtain ⟨_, h2⟩ := recvLoop_ok_spec s.input (optBytes s.backlog) ho
    by_cases hsplit : (msg.length : Int) > len
    · rw [if_pos hsplit] at hok
      simp at hok
      subst hok
      rw [pySliceTo_nonneg msg hlen]
      simp only [List.length_take]
      omega
    · rw [if_neg hsplit] at hok
      simp at hok
      subst hok
      omega
  all_goals exact absurd hok (by simp)

theorem recv_parts (len : Int) (s : SockState) :
    (recv len s).log = (recvLoopOf len s).log
    ∧ (recv len s).input = (recvLoopOf len s).input
    ∧ ((recv len s).outcome = .broken ↔ (recvLoopOf len s).outcome = .broken)
    ∧ ((recv len s).outcome = .timedOut ↔ (recvLoopOf len s).outcome = .timedOut) := by
  rw [recv_eq]
  rcases ho : (recvLoopOf len s).outcome with msg | _ | _ | _ <;> simp only [ho]
  case ok =>
    by_cases hsplit : (msg.length : Int) > len
    · rw [if_pos hsplit]; simp
    · rw [if_neg hsplit]; simp
  all_goals simp

theorem recv_reserve (b : Bytes) (input2 : List ReadEvent) :
    recv ((b.length : Int)) ⟨some b, input2⟩ = ⟨.ok b, none, input2, []⟩ := by
  have hdone : recvLoopOf ((b.length : Int)) ⟨some b, input2⟩ = ⟨.ok b, input2, []⟩ := by
    unfold recvLoopOf
    exact recvLoop_done (by simp)
  rw [recv_eq, hdone]
  simp

theorem recv_overshoot (len : Int) (s : SockState) {v : Bytes}
    (hok : (recv len s).outcome = .ok v)
    (hcomp : ∀ e ∈ (recv len s).log, e.got.length ≤ e.requested) :
    ∀ b2, (recv len s).backlog = some b2 →
      (recv len s).log = [] ∧ optBytes s.backlog = v ++ b2 := by
  intro b2 hb2
  have hlog := (recv_parts len s).1
  by_cases hcase : ((optBytes s.backlog).length : Int) ≤ len
  · exfalso
    rw [hlog] at hcomp
    rw [recv_eq] at hok hb2
    rcases ho : (recvLoopOf len s).outcome with msg | _ | _ | _
    · simp only [ho] at hok hb2
      have hvle : (msg.length : Int) ≤ len :=
        recvLoop_le s.input (optBytes s.backlog) hcase hcomp ho
      rw [if_neg (by omega)] at hb2
      simp at hb2
    · simp [ho] at hb2
    · simp [ho] at hb2
    · simp [ho] at hb2
  · have hdone : recvLoopOf len s = ⟨.ok (optBytes s.backlog), s.input, []⟩ := by
      unfold recvLoopOf
      exact recvLoop_done (by omega)
    rw [recv_eq, hdone] at hok hb2 ⊢
    dsimp only at hok hb2 ⊢
    rw [if_pos (by omega)] at hok hb2 ⊢
    dsimp only at hok hb2 ⊢
    simp only [Outcome.ok.injEq] at hok
    simp only [Option.some.injEq] at hb2
    subst hok
    subst hb2
    exact ⟨rfl, (pySlice_append (optBytes s.backlog) len).symm⟩

/-- C2: when `recv(length, timeout)` returns normally for a nonnegative
`length`, it returns exactly `length` bytes; every underlying transport
read requests at most `min(remaining need, 4096)` bytes; the bytes
obtained split at offset `length` into the returned message followed by
the new backlog; an over-read (given size-compliant transport reads) can
only come from the backlog seed, in which case no transport read happened
and the split is a split of the old backlog; and a backlog of length `n`
is returned intact, with no transport read, by an immediately following
`recv(n)`. -/
theorem C2_recv_exact (len : Int) (s : SockState) (v : Bytes)
    (hlen : 0 ≤ len) (hok : (recv len s).outcome = .ok v) :
    v.length = len.toNat
    ∧ (∀ p e q, (recv len s).log = p ++ e :: q →
        (e.requested : Int) ≤
          min (len - (((optBytes s.backlog).length : Int) +
            ((flattenLog p).length : Int))) 4096
        ∧ e.requested ≤ 4096)
    ∧ optBytes s.backlog ++ flattenLog (recv len s).log =
        v ++ optBytes (recv len s).backlog
    ∧ ((∀ e ∈ (recv len s).log, e.got.length ≤ e.requested) →
        ∀ b2, (recv len s).backlog = some b2 →
          (recv len s).log = [] ∧ optBytes s.backlog = v ++ b2)
    ∧ (∀ (b : Bytes) (input2 : List ReadEvent),
        recv ((b.length : Int)) ⟨some b, input2⟩ = ⟨.ok b, none, input2, []⟩) := by
  refine ⟨recv_ok_length len s hlen hok, ?_, recv_conserve len s hok,
    recv_overshoot len s hok, recv_reserve⟩
  intro p e q hl
  have hl2 : (recvLoopOf len s).log = p ++ e :: q := by
    rw [← (recv_parts len s).1]
    exact hl
  have heq := recvLoop_req_spec s.input (optBytes s.backlog).length
    (optBytes s.backlog) p e q hl2
  have h4 : (e.requested : Int) ≤ 4096 := heq ▸ min_le_right _ _
  exact ⟨le_of_eq heq, by omega⟩

/-- Witness for C2 at `length = 2` with backlog `[7,8,9]`: the call
returns the 2-byte message `[7,8]`. -/
theorem C2_witness :
    ([7,8] : Bytes).length = (2 : Int).toNat
    ∧ (recv 2 ⟨some [7,8,9], []⟩).outcome = .ok [7,8] :=
  ⟨(C2_recv_exact 2 ⟨some [7,8,9], []⟩ [7,8] (by decide) (by decide)).1, by decide⟩

/-- C8: a timeout inside `recv` makes the call fail with the timeout
error, and the failed call leaves no backlog: every byte accumulated in
the call, including a backlog consumed at entry, is lost. -/
theorem C8_recv_timeout_loses_bytes (len : Int) (s : SockState) :
    ((recv len s).outcome = .timedOut → (recv len s).backlog = none)
    ∧ (∀ (pre : List Bytes) (rest : List ReadEvent),
        s.input = pre.map .bytes ++ .timeout :: rest →
        (∀ c ∈ pre, c ≠ []) →
        ((optBytes s.backlog).length : Int) + (pre.flatten.length : Int) < len →
        (recv len s).outcome = .timedOut) := by
  constructor
  · intro ht
    rw [recv_eq] at ht ⊢
    rcases ho : (recvLoopOf len s).outcome with msg | _ | _ | _
    · simp only [ho] at ht ⊢
      by_cases hsplit : (msg.length : Int) > len
      · rw [if_pos hsplit] at ht
        simp at ht
      · rw [if_neg hsplit] at ht
        simp at ht
    · simp [ho] at ht
    · simp [ho]
    · simp [ho] at ht
  · intro pre rest hinput hne hlt
    have hto : (recvLoopOf len s).outcome = .timedOut := by
      unfold recvLoopOf
      rw [hinput]
      exact recvLoop_run_timeout pre (optBytes s.backlog).length
        (optBytes s.backlog) rest hne hlt
    exact ((recv_parts len s).2.2.2).mpr hto

/-- Witness for C8: with backlog `[1,2]` and a timing-out transport,
`recv 5` fails with the timeout and the backlog is gone. -/
theorem C8_witness :
    (recv 5 ⟨some [1,2], [.timeout]⟩).outcome = .timedOut
    ∧ (recv 5 ⟨some [1,2], [.timeout]⟩).backlog = none :=
  ⟨(C8_recv_timeout_loses_bytes 5 ⟨some [1,2], [.timeout]⟩).2 [] [] rfl
      (by simp) (by decide),
    (C8_recv_timeout_loses_bytes 5 ⟨some [1,2], [.timeout]⟩).1 (by decide)⟩

/-- C9: `recv` with `length = 0` returns the empty message at once,
consumes no transport read, and leaves the byte content of the backlog
seen by the next receive call unchanged. -/
theorem C9_recv_zero (s : SockState) :
    (recv 0 s).outcome = .ok []
    ∧ (recv 0 s).input = s.input
    ∧ (recv 0 s).log = []
    ∧ optBytes (recv 0 s).backlog = optBytes s.backlog := by
  have hdone : recvLoopOf 0 s = ⟨.ok (optBytes s.backlog), s.input, []⟩ := by
    unfold recvLoopOf
    exact recvLoop_done (by omega)
  rw [recv_eq, hdone]
  dsimp only
  rcases hacc : optBytes s.backlog with _ | ⟨x, xs⟩
  · rw [if_neg (by simp)]
    simp
  · rw [if_pos (by simp only [List.length_cons]; push_cast; omega)]
    dsimp only
    refine ⟨by rw [pySliceTo_zero], rfl, rfl, ?_⟩
    rw [optBytes_some, pySliceFrom_zero]

/-! ### Unfolding rules for the separator loop -/

theorem recvSepLoop_nil (sep : Bytes) (blR : Option Bytes) (msg : Bytes) (ss : Nat) :
    recvSepLoop sep blR [] msg ss = ⟨.blocked, blR, [], []⟩ := rfl

theorem recvSepLoop_timeoutEv (sep : Bytes) (blR : Option Bytes)
    (rest : List ReadEvent) (msg : Bytes) (ss : Nat) :
    recvSepLoop sep blR (.timeout :: rest) msg ss = ⟨.timedOut, blR, rest, []⟩ := rfl

theorem recvSepLoop_emptyChunk (sep : Bytes) (blR : Option Bytes)
    (rest : List ReadEvent) (msg : Bytes) (ss : Nat) :
    recvSepLoop sep blR (.bytes [] :: rest) msg ss =
      ⟨.broken, blR, rest, [⟨4096, []⟩]⟩ := rfl

theorem recvSepLoop_bytes_inl {sep b msg : Bytes} {ss : Nat} {res : Bytes}
    {nb : Option Bytes} (blR : Option Bytes) (rest : List ReadEvent) (hb : b ≠ [])
    (hstep : sepChunkStep sep b msg ss = .inl (res, nb)) :
    recvSepLoop sep blR (.bytes b :: rest) msg ss = ⟨.ok res, nb, rest, [⟨4096, b⟩]⟩ := by
  have hbe : b.isEmpty = false := by simpa [List.isEmpty_iff] using hb
  simp only [recvSepLoop, hbe, Bool.false_eq_true, if_false, hstep]

theorem recvSepLoop_bytes_inr {sep b msg : Bytes} {ss : Nat} {m2 : Bytes} {ss2 : Nat}
    (blR : Option Bytes) (rest : List ReadEvent) (hb : b ≠ [])
    (hstep : sepChunkStep sep b msg ss = .inr (m2, ss2)) :
    recvSepLoop sep blR (.bytes b :: rest) msg ss =
      ⟨(recvSepLoop sep blR rest m2 ss2).outcome,
       (recvSepLoop sep blR rest m2 ss2).backlog,
       (recvSepLoop sep blR rest m2 ss2).input,
       ⟨4096, b⟩ :: (recvSepLoop sep blR rest m2 ss2).log⟩ := by
  have hbe : b.isEmpty = false := by simpa [List.isEmpty_iff] using hb
  simp only [recvSepLoop, hbe, Bool.false_eq_true, if_false, hstep]

/-! ### Behaviour of one separator-search step -/

theorem startIdx_eq (a b : Nat) :
    ((max 0 ((a : Int) - ((b : Int) - 1))).toNat) = (a + 1) - b := by
  omega

theorem sepChunkStep_found_at (pre post : Bytes) {sep c msg : Bytes} {ss : Nat}
    (hfirst : ∀ i, i < pre.length → matchAt (pre ++ sep ++ post) sep i = false)
    (hmc : msg ++ c = pre ++ sep ++ post) (hss : ss ≤ pre.length) :
    sepChunkStep sep c msg ss = .inl (pre, some post) := by
  have hfind : bytesFind (msg ++ c) sep ss = (pre.length : Int) := by
    rw [hmc]
    exact bytesFind_eq_of_first hss (matchAt_append_sep sep pre post) hfirst
  unfold sepChunkStep
  dsimp only
  rw [hfind, if_pos (by omega)]
  have htake : (msg ++ c).take ((pre.length : Int)).toNat = pre := by
    rw [hmc, Int.toNat_natCast]
    rw [show pre ++ sep ++ post = pre ++ (sep ++ post) from by simp]
    exact List.take_left pre (sep ++ post)
  have hdrop : (msg ++ c).drop (((pre.length : Int)).toNat + sep.length) = post := by
    rw [hmc, Int.toNat_natCast]
    exact List.drop_left' (by simp)
  rw [htake, hdrop]

theorem sepChunkStep_notfound (sep c msg : Bytes) (ss : Nat)
    (hnom : ∀ j, matchAt (msg ++ c) sep j = false) :
    sepChunkStep sep c msg ss =
      .inr (msg ++ c, (((msg ++ c).length + 1) - sep.length)) := by
  unfold sepChunkStep
  dsimp only
  rw [bytesFind_eq_neg_one ss hnom, if_neg (by omega), startIdx_eq]

theorem matchAt_false_of_eq_append {sep m msg t : Bytes} (hsep : sep ≠ [])
    (hfirst : ∀ i, i < m.length → matchAt (m ++ sep) sep i = false)
    (heq : msg ++ t = m ++ sep) (hlt : msg.length < m.length + sep.length) :
    ∀ j, matchAt msg sep j = false := by
  intro j
  cases hmj : matchAt msg sep j with
  | false => rfl
  | true =>
    exfalso
    have hle := matchAt_le hmj
    have hsl : 0 < sep.length := List.length_pos.mpr hsep
    have hjm : j < m.length := by omega
    have h2 : matchAt (msg ++ t) sep j = true := matchAt_append_left hmj
    rw [heq] at h2
    rw [hfirst j hjm] at h2
    exact Bool.false_ne_true h2

/-- The incremental separator search never misses and never anticipates:
when the bytes still to arrive complete `m ++ sep` whose only separator
occurrence is the final one, the loop consumes exactly the remaining
chunks and returns `m`, leaving the empty backlog. -/
theorem recvSepLoop_run (sep m : Bytes) (hsep : sep ≠ [])
    (hfirst : ∀ i, i < m.length → matchAt (m ++ sep) sep i = false) (blR : Option Bytes) :
    ∀ (chunks : List Bytes) (msg : Bytes) (rest : List ReadEvent),
      (∀ c ∈ chunks, c ≠ []) →
      msg ++ chunks.flatten = m ++ sep →
      msg.length < m.length + sep.length →
      recvSepLoop sep blR (chunks.map ReadEvent.bytes ++ rest) msg
          ((msg.length + 1) - sep.length) =
        ⟨.ok m, some [], rest, chunks.map (fun c => ⟨4096, c⟩)⟩ := by
  intro chunks
  induction chunks with
  | nil =>
    intro msg rest hne hflat hlt
    exfalso
    rw [List.flatten_nil, List.append_nil] at hflat
    have := congrArg List.length hflat
    simp only [List.length_append] at this
    omega
  | cons c cs ih =>
    intro msg rest hne hflat hlt
    have hc : c ≠ [] := hne c (by simp)
    rw [List.flatten_cons, ← List.append_assoc] at hflat
    have hlen := congrArg List.length hflat
    simp only [List.length_append] at hlen
    have hsl : 0 < sep.length := List.length_pos.mpr hsep
    by_cases hlast : (msg ++ c).length = m.length + sep.length
    · have hflat0 : cs.flatten = [] := by
        have hl0 : cs.flatten.length = 0 := by
          simp only [List.length_append] at hlast
          omega
        exact List.length_eq_zero.mp hl0
      have hcs : cs = [] := by
        rcases cs with _ | ⟨c0, cs2⟩
        · rfl
        · exact absurd ((List.flatten_eq_nil_iff.mp hflat0) c0 (by simp))
            (hne c0 (by simp))
      subst hcs
      rw [List.flatten_nil, List.append_nil] at hflat
      have hstep : sepChunkStep sep c msg ((msg.length + 1) - sep.length) =
          .inl (m, some []) := by
        refine sepChunkStep_found_at _ _ ?_ ?_ ?_
        · intro i hi
          rw [List.append_nil]
          exact hfirst i hi
        · rw [List.append_nil]
          exact hflat
        · omega
      rw [List.map_cons, List.map_nil, List.cons_append, List.nil_append,
        recvSepLoop_bytes_inl blR rest hc hstep]
      rfl
    · have hlt2 : (msg ++ c).length < m.length + sep.length := by
        simp only [List.length_append] at hlast ⊢
        omega
      have hnom : ∀ j, matchAt (msg ++ c) sep j = false :=
        matchAt_false_of_eq_append hsep hfirst hflat hlt2
      have hstep : sepChunkStep sep c msg ((msg.length + 1) - sep.length) =
          .inr (msg ++ c, (((msg ++ c).length + 1) - sep.length)) :=
        sepChunkStep_notfound sep c msg _ hnom
      rw [List.map_cons, List.cons_append, recvSepLoop_bytes_inr blR _ hc hstep]
      rw [ih (msg ++ c) rest (fun x hx => hne x (by simp [hx])) hflat hlt2]
      rfl

theorem recvSep_backlog_inl {sep b : Bytes} {res : Bytes} {nb : Option Bytes}
    (input : List ReadEvent) (hb : b ≠ [])
    (hstep : sepChunkStep sep b [] 0 = .inl (res, nb)) :
    recv_to_separator sep ⟨some b, input⟩ = ⟨.ok res, nb, input, []⟩ := by
  unfold recv_to_separator
  have hbe : b.isEmpty = false := by simpa [List.isEmpty_iff] using hb
  simp only [hbe, Bool.false_eq_true, if_false, hstep]

theorem recvSep_backlog_inr {sep b m2 : Bytes} {ss2 : Nat}
    (input : List ReadEvent) (hb : b ≠ [])
    (hstep : sepChunkStep sep b [] 0 = .inr (m2, ss2)) :
    recv_to_separator sep ⟨some b, input⟩ = recvSepLoop sep none input m2 ss2 := by
  unfold recv_to_separator
  have hbe : b.isEmpty = false := by simpa [List.isEmpty_iff] using hb
  simp only [hbe, Bool.false_eq_true, if_false, hstep]

/-- C1 (amended): the round-trip holds for every split into nonempty
arrival chunks and for backlog-seeded delivery, provided the separator's
first occurrence in `m ++ sep` is the final one (at offset `len(m)`).
The original claim assumed only that `m` does not contain the separator,
which does not rule out an earlier occurrence straddling the boundary
between `m` and the separator (see the counterexample). -/
theorem C1_recv_to_separator_roundtrip (sep m : Bytes) (chunks : List Bytes)
    (rest : List ReadEvent) (hsep : sep ≠ [])
    (hfirst : ∀ i, i < m.length → matchAt (m ++ sep) sep i = false)
    (hne : ∀ c ∈ chunks, c ≠ [])
    (hsplit : chunks.flatten = m ++ sep) :
    recv_to_separator sep ⟨none, chunks.map ReadEvent.bytes ++ rest⟩ =
      ⟨.ok m, some [], rest, chunks.map (fun c => ⟨4096, c⟩)⟩
    ∧ (∀ b cs2, chunks = b :: cs2 →
        recv_to_separator sep ⟨some b, cs2.map ReadEvent.bytes ++ rest⟩ =
          ⟨.ok m, some [], rest, cs2.map (fun c => ⟨4096, c⟩)⟩) := by
  have hsl : 0 < sep.length := List.length_pos.mpr hsep
  constructor
  · show recvSepLoop sep none (chunks.map ReadEvent.bytes ++ rest) [] 0 = _
    have h := recvSepLoop_run sep m hsep hfirst none chunks [] rest hne
      (by simpa using hsplit) (by simp only [List.length_nil]; omega)
    have hss0 : ((List.length ([] : Bytes) + 1) - sep.length) = 0 := by
      simp only [List.length_nil]
      omega
    rw [hss0] at h
    exact h
  · intro b cs2 hch
    subst hch
    have hb : b ≠ [] := hne b (by simp)
    rw [List.flatten_cons] at hsplit
    have hblen : b.length ≤ m.length + sep.length := by
      have := congrArg List.length hsplit
      simp only [List.length_append] at this
      omega
    by_cases hlast : b.length = m.length + sep.length
    · have hflat0 : cs2.flatten = [] := by
        have hl0 : cs2.flatten.length = 0 := by
          have := congrArg List.length hsplit
          simp only [List.length_append] at this
          omega
        exact List.length_eq_zero.mp hl0
      have hcs : cs2 = [] := by
        rcases cs2 with _ | ⟨c0, cs3⟩
        · rfl
        · exact absurd ((List.flatten_eq_nil_iff.mp hflat0) c0 (by simp))
            (hne c0 (by simp))
      subst hcs
      rw [List.flatten_nil, List.append_nil] at hsplit
      have hstep : sepChunkStep sep b [] 0 = .inl (m, some []) := by
        refine sepChunkStep_found_at _ _ ?_ ?_ (by omega)
        · intro i hi
          rw [List.append_nil]
          exact hfirst i hi
        · rw [List.append_nil, List.nil_append]
          exact hsplit
      rw [recvSep_backlog_inl _ hb hstep]
      rfl
    · have hlt2 : b.length < m.length + sep.length := by omega
      have hnom : ∀ j, matchAt b sep j = false :=
        matchAt_false_of_eq_append hsep hfirst hsplit hlt2
      have hstep : sepChunkStep sep b [] 0 =
          .inr (b, ((b.length + 1) - sep.length)) := by
        have h0 := sepChunkStep_notfound sep b [] 0 (by simpa using hnom)
        simpa using h0
      rw [recvSep_backlog_inr _ hb hstep]
      exact recvSepLoop_run sep m hsep hfirst none cs2 b rest
        (fun x hx => hne x (by simp [hx])) hsplit hlt2

/-- Counterexample to C1 as stated: for `m = [0]` and `sep = [0,0]`, the
message does not contain the separator (`find` returns `-1`), yet
delivering `m ++ sep` in one chunk makes `recv_to_separator` return the
empty message, not `m`: the separator occurrence starting inside `m`
wins. -/
theorem C1_counterexample :
    bytesFind [0] [0,0] 0 = -1
    ∧ (recv_to_separator [0,0] ⟨none, [.bytes ([0] ++ [0,0])]⟩).outcome =
        .ok []
    ∧ Outcome.ok ([] : Bytes) ≠ .ok [0] := by
  decide

/-- Witness for the amended C1: separator `[9,9]` split across chunks
`[1]`, `[2,9]`, `[9]` still yields the message `[1,2]`. -/
theorem C1_witness :
    recv_to_separator [9,9] ⟨none, [.bytes [1], .bytes [2,9], .bytes [9]]⟩ =
      ⟨.ok [1,2], some [], [], [⟨4096,[1]⟩, ⟨4096,[2,9]⟩, ⟨4096,[9]⟩]⟩ := by
  have h := (C1_recv_to_separator_roundtrip [9,9] [1,2] [[1],[2,9],[9]] []
    (by decide) (by decide) (by decide) (by decide)).1
  simpa using h

/-- C3 (amended): when `m1 ++ sep ++ m2 ++ sep` arrives in one chunk and
the separator's first occurrence in the whole stream is at `len(m1)` and
its first occurrence in `m2 ++ sep` is at `len(m2)`, the first call
returns `m1` with `m2 ++ sep` as the backlog and the second call returns
`m2` served entirely from the backlog: it consumes no transport event
and logs no transport read.  The original claim assumed only that `m1`
and `m2` are free of the separator, which does not rule out overlap
occurrences (see the counterexample). -/
theorem C3_backlog_two_messages (sep m1 m2 : Bytes) (rest : List ReadEvent)
    (hsep : sep ≠ [])
    (h1 : ∀ i, i < m1.length → matchAt (m1 ++ sep ++ m2 ++ sep) sep i = false)
    (h2 : ∀ i, i < m2.length → matchAt (m2 ++ sep) sep i = false) :
    recv_to_separator sep ⟨none, .bytes (m1 ++ sep ++ m2 ++ sep) :: rest⟩ =
      ⟨.ok m1, some (m2 ++ sep), rest, [⟨4096, m1 ++ sep ++ m2 ++ sep⟩]⟩
    ∧ recv_to_separator sep ⟨some (m2 ++ sep), rest⟩ =
        ⟨.ok m2, some [], rest, []⟩ := by
  have hc : m1 ++ sep ++ m2 ++ sep ≠ [] := by
    simp [hsep]
  have hb2 : m2 ++ sep ≠ [] := by
    simp [hsep]
  have hstep1 : sepChunkStep sep (m1 ++ sep ++ m2 ++ sep) [] 0 =
      .inl (m1, some (m2 ++ sep)) := by
    refine sepChunkStep_found_at _ _ ?_ (by simp) (by omega)
    intro i hi
    have := h1 i hi
    rw [← this]
    congr 1
    simp
  have hstep2 : sepChunkStep sep (m2 ++ sep) [] 0 = .inl (m2, some []) := by
    refine sepChunkStep_found_at _ _ ?_ (by simp) (by omega)
    intro i hi
    rw [List.append_nil]
    exact h2 i hi
  constructor
  · show recvSepLoop sep none (.bytes (m1 ++ sep ++ m2 ++ sep) :: rest) [] 0 = _
    rw [recvSepLoop_bytes_inl none rest hc hstep1]
  · rw [recvSep_backlog_inl rest hb2 hstep2]

/-- Counterexample to C3 as stated: `m1 = [0]`, `m2 = [1]`,
`sep = [0,0]`; neither message contains the separator, yet the first
call on the single chunk `m1 ++ sep ++ m2 ++ sep` returns the empty
message, not `m1`. -/
theorem C3_counterexample :
    bytesFind [0] [0,0] 0 = -1
    ∧ bytesFind [1] [0,0] 0 = -1
    ∧ (recv_to_separator [0,0]
        ⟨none, [.bytes ([0] ++ [0,0] ++ [1] ++ [0,0])]⟩).outcome = .ok []
    ∧ Outcome.ok ([] : Bytes) ≠ .ok [0] := by
  decide

/-- Witness for the amended C3 at `m1 = [1]`, `m2 = [2]`, `sep = [9]`. -/
theorem C3_witness :
    recv_to_separator [9] ⟨none, [.bytes [1,9,2,9]]⟩ =
      ⟨.ok [1], some [2,9], [], [⟨4096,[1,9,2,9]⟩]⟩
    ∧ recv_to_separator [9] ⟨some [2,9], []⟩ = ⟨.ok [2], some [], [], []⟩ := by
  have h := C3_backlog_two_messages [9] [1] [2] [] (by decide) (by decide)
    (by decide)
  constructor
  · have h1 := h.1
    simpa using h1
  · have h2 := h.2
    simpa using h2

theorem recvSepLoop_broken_iff (sep : Bytes) (blR : Option Bytes) :
    ∀ (input : List ReadEvent) (msg : Bytes) (ss : Nat),
      (recvSepLoop sep blR input msg ss).outcome = .broken ↔
        ∃ e ∈ (recvSepLoop sep blR input msg ss).log, e.got = [] := by
  intro input
  induction input with
  | nil =>
    intro msg ss
    rw [recvSepLoop_nil]
    simp
  | cons ev rest ih =>
    intro msg ss
    cases ev with
    | timeout =>
      rw [recvSepLoop_timeoutEv]
      simp
    | bytes b =>
      rcases eq_or_ne b [] with hb | hb
      · subst hb
        rw [recvSepLoop_emptyChunk]
        simp
      · cases hstep : sepChunkStep sep b msg ss with
        | inl p =>
          rcases p with ⟨res, nb⟩
          rw [recvSepLoop_bytes_inl blR rest hb hstep]
          simp [hb]
        | inr p =>
          rcases p with ⟨m2, ss2⟩
          rw [recvSepLoop_bytes_inr blR rest hb hstep]
          dsimp only
          rw [ih m2 ss2]
          constructor
          · rintro ⟨e, he, hg⟩
            exact ⟨e, by simp [he], hg⟩
          · rintro ⟨e, he, hg⟩
            simp only [List.mem_cons] at he
            rcases he with he | he
            · exact absurd hg (by rw [he]; exact hb)
            · exact ⟨e, he, hg⟩

theorem recvSep_broken_iff (sep : Bytes) (s : SockState) :
    (recv_to_separator sep s).outcome = .broken ↔
      ∃ e ∈ (recv_to_separator sep s).log, e.got = [] := by
  rcases s with ⟨bl, input⟩
  rcases bl with _ | b
  · exact recvSepLoop_broken_iff sep none input [] 0
  · rcases eq_or_ne b [] with hb | hb
    · subst hb
      exact recvSepLoop_broken_iff sep (some []) input [] 0
    · cases hstep : sepChunkStep sep b [] 0 with
      | inl p =>
        rcases p with ⟨res, nb⟩
        rw [recvSep_backlog_inl input hb hstep]
        simp
      | inr p =>
        rcases p with ⟨m2, ss2⟩
        rw [recvSep_backlog_inr input hb hstep]
        exact recvSepLoop_broken_iff sep none input m2 ss2

theorem recv_broken_iff (len : Int) (s : SockState) :
    (recv len s).outcome = .broken ↔ ∃ e ∈ (recv len s).log, e.got = [] := by
  rw [(recv_parts len s).2.2.1, (recv_parts len s).1]
  exact recvLoop_broken_iff s.input (optBytes s.backlog).length (optBytes s.backlog)

/-- C4: `recv` and `recv_to_separator` fail with the connection-broken
error exactly when some underlying transport read returned zero bytes
before the call was satisfied; in that case no partial result reaches
the caller (the broken outcome carries no bytes). -/
theorem C4_broken_iff_empty_read (len : Int) (sep : Bytes) (s t : SockState) :
    ((recv len s).outcome = .broken ↔ ∃ e ∈ (recv len s).log, e.got = [])
    ∧ ((recv_to_separator sep t).outcome = .broken ↔
        ∃ e ∈ (recv_to_separator sep t).log, e.got = [])
    ∧ (∀ v : Bytes, (recv len s).outcome = .broken →
        (recv len s).outcome ≠ .ok v)
    ∧ (∀ v : Bytes, (recv_to_separator sep t).outcome = .broken →
        (recv_to_separator sep t).outcome ≠ .ok v) := by
  refine ⟨recv_broken_iff len s, recvSep_broken_iff sep t, ?_, ?_⟩
  · intro v hbr hok
    rw [hbr] at hok
    exact absurd hok (by simp)
  · intro v hbr hok
    rw [hbr] at hok
    exact absurd hok (by simp)

/-- Witness for C4: a zero-byte transport read after one delivered byte
makes `recv 5` fail broken, and the partial byte is not returned. -/
theorem C4_witness :
    (recv 5 ⟨none, [.bytes [1], .bytes []]⟩).outcome = .broken
    ∧ (recv 5 ⟨none, [.bytes [1], .bytes []]⟩).outcome ≠ .ok [1] :=
  ⟨by decide,
    (C4_broken_iff_empty_read 5 [0] ⟨none, [.bytes [1], .bytes []]⟩
      ⟨none, []⟩).2.2.1 [1] (by decide)⟩

theorem recvSepLoop_blR_irrel (sep : Bytes) (blR blR2 : Option Bytes) :
    ∀ (input : List ReadEvent) (msg : Bytes) (ss : Nat),
      (recvSepLoop sep blR input msg ss).outcome =
        (recvSepLoop sep blR2 input msg ss).outcome
      ∧ (recvSepLoop sep blR input msg ss).input =
          (recvSepLoop sep blR2 input msg ss).input
      ∧ (recvSepLoop sep blR input msg ss).log =
          (recvSepLoop sep blR2 input msg ss).log := by
  intro input
  induction input with
  | nil =>
    intro msg ss
    rw [recvSepLoop_nil, recvSepLoop_nil]
    exact ⟨rfl, rfl, rfl⟩
  | cons ev rest ih =>
    intro msg ss
    cases ev with
    | timeout =>
      rw [recvSepLoop_timeoutEv, recvSepLoop_timeoutEv]
      exact ⟨rfl, rfl, rfl⟩
    | bytes b =>
      rcases eq_or_ne b [] with hb | hb
      · subst hb
        rw [recvSepLoop_emptyChunk, recvSepLoop_emptyChunk]
        exact ⟨rfl, rfl, rfl⟩
      · cases hstep : sepChunkStep sep b msg ss with
        | inl p =>
          rcases p with ⟨res, nb⟩
          rw [recvSepLoop_bytes_inl blR rest hb hstep,
            recvSepLoop_bytes_inl blR2 rest hb hstep]
          exact ⟨rfl, rfl, rfl⟩
        | inr p =>
          rcases p with ⟨m2, ss2⟩
          rw [recvSepLoop_bytes_inr blR rest hb hstep,
            recvSepLoop_bytes_inr blR2 rest hb hstep]
          obtain ⟨ho, hi, hl⟩ := ih m2 ss2
          exact ⟨ho, hi, by rw [hl]⟩

/-- C10: a present-but-empty backlog (as left behind when a separator
ended exactly at the last received byte) is never mistaken for a
zero-byte transport read: `recv_to_separator` behaves exactly as with no
backlog at all — same outcome, same consumed transport events, same
reads — and the connection-broken failure occurs exactly when an actual
transport read returns zero bytes. -/
theorem C10_empty_backlog_not_broken (sep : Bytes) (input : List ReadEvent) :
    (recv_to_separator sep ⟨some [], input⟩).outcome =
      (recv_to_separator sep ⟨none, input⟩).outcome
    ∧ (recv_to_separator sep ⟨some [], input⟩).input =
        (recv_to_separator sep ⟨none, input⟩).input
    ∧ (recv_to_separator sep ⟨some [], input⟩).log =
        (recv_to_separator sep ⟨none, input⟩).log
    ∧ ((recv_to_separator sep ⟨some [], input⟩).outcome = .broken ↔
        ∃ e ∈ (recv_to_separator sep ⟨some [], input⟩).log, e.got = []) := by
  have h1 : recv_to_separator sep ⟨some [], input⟩ =
      recvSepLoop sep (some []) input [] 0 := rfl
  have h2 : recv_to_separator sep ⟨none, input⟩ =
      recvSepLoop sep none input [] 0 := rfl
  obtain ⟨ho, hi, hl⟩ := recvSepLoop_blR_irrel sep (some []) none input [] 0
  rw [h1, h2]
  exact ⟨ho, hi, hl, recvSepLoop_broken_iff sep (some []) input [] 0⟩

/-! ### Conservation of the byte stream -/

theorem sepChunkStep_inl_split {sep chunk msg : Bytes} {ss : Nat} {res : Bytes}
    {nb : Option Bytes} (h : sepChunkStep sep chunk msg ss = .inl (res, nb)) :
    ∃ b2, nb = some b2 ∧ res ++ sep ++ b2 = msg ++ chunk := by
  unfold sepChunkStep at h
  dsimp only at h
  by_cases hc : bytesFind (msg ++ chunk) sep ss > -1
  · rw [if_pos hc] at h
    have hma := bytesFind_matchAt hc
    simp only [Sum.inl.injEq, Prod.mk.injEq] at h
    obtain ⟨h1, h2⟩ := h
    refine ⟨(msg ++ chunk).drop ((bytesFind (msg ++ chunk) sep ss).toNat + sep.length),
      h2.symm, ?_⟩
    rw [← h1]
    exact matchAt_split hma
  · rw [if_neg hc] at h
    exact absurd h (by simp)

theorem sepChunkStep_inr_acc {sep chunk msg : Bytes} {ss ss2 : Nat} {m2 : Bytes}
    (h : sepChunkStep sep chunk msg ss = .inr (m2, ss2)) : m2 = msg ++ chunk := by
  unfold sepChunkStep at h
  dsimp only at h
  by_cases hc : bytesFind (msg ++ chunk) sep ss > -1
  · rw [if_pos hc] at h
    exact absurd h (by simp)
  · rw [if_neg hc] at h
    simp only [Sum.inr.injEq, Prod.mk.injEq] at h
    exact h.1.symm

theorem recvSepLoop_conserve (sep : Bytes) (blR : Option Bytes) :
    ∀ (input : List ReadEvent) (msg : Bytes) (ss : Nat) (v : Bytes),
      (recvSepLoop sep blR input msg ss).outcome = .ok v →
      v ++ sep ++ optBytes (recvSepLoop sep blR input msg ss).backlog =
        msg ++ flattenLog (recvSepLoop sep blR input msg ss).log := by
  intro input
  induction input with
  | nil =>
    intro msg ss v h
    rw [recvSepLoop_nil] at h
    simp at h
  | cons ev rest ih =>
    intro msg ss v h
    cases ev with
    | timeout =>
      rw [recvSepLoop_timeoutEv] at h
      simp at h
    | bytes b =>
      rcases eq_or_ne b [] with hb | hb
      · subst hb
        rw [recvSepLoop_emptyChunk] at h
        simp at h
      · cases hstep : sepChunkStep sep b msg ss with
        | inl p =>
          rcases p with ⟨res, nb⟩
          rw [recvSepLoop_bytes_inl blR rest hb hstep] at h ⊢
          dsimp only at h ⊢
          simp only [Outcome.ok.injEq] at h
          subst h
          obtain ⟨b2, hnb, hsplit2⟩ := sepChunkStep_inl_split hstep
          subst hnb
          rw [optBytes_some, hsplit2]
          simp [flattenLog]
        | inr p =>
          rcases p with ⟨m2, ss2⟩
          rw [recvSepLoop_bytes_inr blR rest hb hstep] at h ⊢
          dsimp only at h ⊢
          have hrec := ih m2 ss2 v h
          have hm2 := sepChunkStep_inr_acc hstep
          rw [hrec, hm2, flattenLog_cons]
          dsimp only
          rw [List.append_assoc]

theorem recvSep_conserve (sep : Bytes) (s : SockState) {v : Bytes}
    (hok : (recv_to_separator sep s).outcome = .ok v) :
    optBytes s.backlog ++ flattenLog (recv_to_separator sep s).log =
      v ++ sep ++ optBytes (recv_to_separator sep s).backlog := by
  rcases s with ⟨bl, input⟩
  rcases bl with _ | b
  · have h := recvSepLoop_conserve sep none input [] 0 v hok
    simpa using h.symm
  · rcases eq_or_ne b [] with hb | hb
    · subst hb
      have h := recvSepLoop_conserve sep (some []) input [] 0 v hok
      simpa using h.symm
    · cases hstep : sepChunkStep sep b [] 0 with
      | inl p =>
        rcases p with ⟨res, nb⟩
        rw [recvSep_backlog_inl input hb hstep] at hok ⊢
        dsimp only at hok ⊢
        simp only [Outcome.ok.injEq] at hok
        subst hok
        obtain ⟨b2, hnb, hsplit2⟩ := sepChunkStep_inl_split hstep
        subst hnb
        simp only [optBytes_some, flattenLog_nil, List.append_nil]
        rw [hsplit2]
        simp
      | inr p =>
        rcases p with ⟨m2, ss2⟩
        rw [recvSep_backlog_inr input hb hstep] at hok ⊢
        have hm2 : m2 = b := by simpa using sepChunkStep_inr_acc hstep
        subst hm2
        have h := recvSepLoop_conserve sep none input m2 ss2 v hok
        simpa using h.symm

theorem call_conserve (c : Call) (s : SockState) {v : Bytes}
    (h : (c.run s).outcome = .ok v) :
    optBytes s.backlog ++ flattenLog (c.run s).log =
      v ++ c.sepBytes ++ optBytes (c.run s).backlog := by
  cases c with
  | recvN len =>
    have h2 := recv_conserve len s h
    simpa [Call.run, Call.sepBytes] using h2
  | recvSep sep =>
    have h2 := recvSep_conserve sep s h
    simpa [Call.run, Call.sepBytes] using h2

/-- C5: across any sequence of receive calls that all return normally,
bytes are only deferred through the single backlog buffer, never
reordered or duplicated: the initial backlog followed by everything read
from the transport equals the returned messages with their consumed
separators, in call order, followed by the final backlog.  (The model
makes "at most one backlog buffer" structural: the state holds one
`Option` field, exactly like the Python attribute.) -/
theorem C5_byte_conservation :
    ∀ (cs : List Call) (s : SockState) (outs : List Bytes) (s2 : SockState)
      (log : List ReadLog),
      runCalls cs s = some (outs, s2, log) →
      optBytes s.backlog ++ flattenLog log =
        (List.zipWith (fun c v => v ++ c.sepBytes) cs outs).flatten ++
          optBytes s2.backlog := by
  intro cs
  induction cs with
  | nil =>
    intro s outs s2 log h
    unfold runCalls at h
    simp only [Option.some.injEq, Prod.mk.injEq] at h
    obtain ⟨h1, h2, h3⟩ := h
    subst h1
    subst h2
    subst h3
    simp [flattenLog]
  | cons c cs ih =>
    intro s outs s2 log h
    unfold runCalls at h
    cases ho : (c.run s).outcome with
    | ok v =>
      rw [ho] at h
      dsimp only at h
      cases hrec : runCalls cs ⟨(c.run s).backlog, (c.run s).input⟩ with
      | none =>
        rw [hrec] at h
        simp at h
      | some t =>
        rcases t with ⟨outs0, s3, log0⟩
        rw [hrec] at h
        simp only [Option.some.injEq, Prod.mk.injEq] at h
        obtain ⟨h1, h2, h3⟩ := h
        subst h1
        subst h2
        subst h3
        have hcall := call_conserve c s ho
        have hih := ih ⟨(c.run s).backlog, (c.run s).input⟩ outs0 s3 log0 hrec
        dsimp only at hih
        rw [flattenLog_append, ← List.append_assoc, hcall, List.zipWith_cons_cons,
          List.flatten_cons]
        simp only [List.append_assoc]
        rw [hih]
    | broken =>
      rw [ho] at h
      simp at h
    | timedOut =>
      rw [ho] at h
      simp at h
    | blocked =>
      rw [ho] at h
      simp at h

/-- Witness for C5: one separator-framed message followed by a
fixed-length read, with a final backlog of one byte. -/
theorem C5_witness :
    optBytes (none : Option Bytes) ++ flattenLog [⟨4096, [1,2,0,3,4,5]⟩] =
      (List.zipWith (fun c v => v ++ Call.sepBytes c)
        [Call.recvSep [0], Call.recvN 2] [[1,2],[3,4]]).flatten ++
        optBytes (some [5]) :=
  C5_byte_conservation [Call.recvSep [0], Call.recvN 2]
    ⟨none, [.bytes [1,2,0,3,4,5]]⟩ [[1,2],[3,4]] ⟨some [5], []⟩
    [⟨4096, [1,2,0,3,4,5]⟩] (by decide)

/-! ### Behaviour of send -/

theorem sendLoop_done {msgLen total : Nat} {writes : List Nat}
    (h : ¬ total < msgLen) : sendLoop msgLen writes total = (.ok total, writes) := by
  unfold sendLoop
  rw [if_neg h]

theorem sendLoop_ok {msgLen : Nat} :
    ∀ (writes : List Nat) (total : Nat),
      (∀ n, n ≤ writes.length → total + (writes.take n).sum ≤ msgLen) →
      ∀ t ws2, sendLoop msgLen writes total = (.ok t, ws2) → t = msgLen := by
  intro writes
  induction writes with
  | nil =>
    intro total hsum t ws2 h
    by_cases hlt : total < msgLen
    · unfold sendLoop at h
      rw [if_pos hlt] at h
      simp at h
    · rw [sendLoop_done hlt] at h
      simp only [Prod.mk.injEq, Outcome.ok.injEq] at h
      have h0 := hsum 0 (by omega)
      simp only [List.take_nil, List.sum_nil] at h0
      omega
  | cons w p2 ih =>
    intro total hsum t ws2 h
    by_cases hlt : total < msgLen
    · unfold sendLoop at h
      rw [if_pos hlt] at h
      dsimp only at h
      by_cases hw : w = 0
      · rw [if_pos hw] at h
        simp at h
      · rw [if_neg hw] at h
        refine ih (total + w) ?_ t ws2 h
        intro n hn
        have hh := hsum (n + 1) (by simpa using hn)
        rw [List.take_succ_cons, List.sum_cons] at hh
        omega
    · rw [sendLoop_done hlt] at h
      simp only [Prod.mk.injEq, Outcome.ok.injEq] at h
      have h0 := hsum 0 (by omega)
      simp only [List.take_zero, List.sum_nil] at h0
      omega

theorem sendLoop_broken {msgLen : Nat} :
    ∀ (p : List Nat) (total : Nat) (rest : List Nat),
      0 ∉ p →
      (∀ n, n ≤ p.length → total + (p.take n).sum < msgLen) →
      sendLoop msgLen (p ++ 0 :: rest) total = (.broken, rest) := by
  intro p
  induction p with
  | nil =>
    intro total rest _ hsum
    have h0 := hsum 0 (by omega)
    simp only [List.take_nil, List.sum_nil, Nat.add_zero] at h0
    unfold sendLoop
    rw [List.nil_append, if_pos h0]
    dsimp only
    rw [if_pos rfl]
  | cons w p2 ih =>
    intro total rest hnotin hsum
    have h0 := hsum 0 (by omega)
    simp only [List.take_zero, List.sum_nil, Nat.add_zero] at h0
    have hw : w ≠ 0 := fun hw0 => hnotin (by simp [hw0])
    unfold sendLoop
    rw [List.cons_append, if_pos h0]
    dsimp only
    rw [if_neg hw]
    refine ih (total + w) rest (fun hin => hnotin (by simp [hin])) ?_
    intro n hn
    have hh := hsum (n + 1) (by simpa using hn)
    rw [List.take_succ_cons, List.sum_cons] at hh
    omega

/-- C6: `send` loops on partial writes until everything is written and
then returns exactly `len(msg_bytes)` (for any transport write counts
that respect the transport contract, i.e. never exceed what remains to
send); a zero-byte write while bytes remain makes it fail with the
connection-broken error immediately, consuming nothing after the zero
count (no retry). -/
theorem C6_send_loops_and_breaks (msg : Bytes) (writes : List Nat) :
    ((∀ n, n ≤ writes.length → (writes.take n).sum ≤ msg.length) →
      ∀ t ws2, send msg writes = (.ok t, ws2) → t = msg.length)
    ∧ (∀ p rest, writes = p ++ 0 :: rest → 0 ∉ p →
        (∀ n, n ≤ p.length → (p.take n).sum < msg.length) →
        send msg writes = (.broken, rest)) := by
  constructor
  · intro hsum t ws2 h
    exact sendLoop_ok writes 0 (fun n hn => by simpa using hsum n hn) t ws2 h
  · intro p rest hw hnotin hsum
    rw [hw]
    exact sendLoop_broken p 0 rest hnotin (fun n hn => by simpa using hsum n hn)

/-- Witness for C6: two partial writes send all three bytes; a zero
write after one accepted byte breaks, leaving the rest unconsumed. -/
theorem C6_witness :
    (3 : Nat) = ([1,2,3] : Bytes).length
    ∧ send [1,2,3] [1,0,5] = (.broken, [5]) :=
  ⟨(C6_send_loops_and_breaks [1,2,3] [2,1]).1 (by decide) 3 [] (by decide),
    (C6_send_loops_and_breaks [1,2,3] [1,0,5]).2 [1] [5] rfl (by decide)
      (by decide)⟩

/-- Counterexample to C7 as stated: there is no defensive check at all.
`recv_to_separator` with an empty separator returns normally (empty
message), and `recv` with a negative length returns normally (Python
negative slicing); neither raises any error. -/
theorem C7_counterexample :
    (recv_to_separator [] ⟨none, [.bytes [5]]⟩).outcome = .ok []
    ∧ (recv_to_separator [] ⟨none, [.bytes [5]]⟩).outcome ≠ .broken
    ∧ (recv_to_separator [] ⟨none, [.bytes [5]]⟩).outcome ≠ .timedOut
    ∧ (recv (-1) ⟨some [1,2], []⟩).outcome = .ok [1]
    ∧ (recv (-1) ⟨some [1,2], []⟩).outcome ≠ .broken
    ∧ (recv (-1) ⟨some [1,2], []⟩).outcome ≠ .timedOut := by
  decide

/-- C7 (amended): neither call performs a defensive boundary check.
`recv_to_separator` with the empty separator succeeds immediately with
the empty message, installing the first available chunk (the non-empty
backlog if present, else the first transport read) whole as the new
backlog; `recv` with a negative length performs no transport read and
returns normally, splitting the consumed backlog by Python
negative-index slicing. -/
theorem C7_no_defensive_checks :
    (∀ (bl : Bytes) (input : List ReadEvent), bl ≠ [] →
      recv_to_separator [] ⟨some bl, input⟩ = ⟨.ok [], some bl, input, []⟩)
    ∧ (∀ (c : Bytes) (input : List ReadEvent), c ≠ [] →
        recv_to_separator [] ⟨none, .bytes c :: input⟩ =
          ⟨.ok [], some c, input, [⟨4096, c⟩]⟩)
    ∧ (∀ (len : Int) (s : SockState), len < 0 →
        recv len s = ⟨.ok (pySliceTo (optBytes s.backlog) len),
          some (pySliceFrom (optBytes s.backlog) len), s.input, []⟩) := by
  refine ⟨?_, ?_, ?_⟩
  · intro bl input hbl
    have hstep : sepChunkStep [] bl [] 0 = .inl ([], some bl) := by
      refine sepChunkStep_found_at [] bl ?_ (by simp) (by omega)
      intro i hi
      simp at hi
    exact recvSep_backlog_inl input hbl hstep
  · intro c input hc
    have hstep : sepChunkStep [] c [] 0 = .inl ([], some c) := by
      refine sepChunkStep_found_at [] c ?_ (by simp) (by omega)
      intro i hi
      simp at hi
    show recvSepLoop [] none (.bytes c :: input) [] 0 = _
    rw [recvSepLoop_bytes_inl none input hc hstep]
  · intro len s hneg
    have hdone : recvLoopOf len s = ⟨.ok (optBytes s.backlog), s.input, []⟩ := by
      unfold recvLoopOf
      exact recvLoop_done (by omega)
    rw [recv_eq, hdone]
    dsimp only
    rw [if_pos (by omega)]

/-- Witness for the amended C7: empty separator on a `[9]` backlog, and
`recv(-1)` on a `[1,2]` backlog (which returns `[1]`, keeping `[2]`). -/
theorem C7_witness :
    recv_to_separator [] ⟨some [9], []⟩ = ⟨.ok [], some [9], [], []⟩
    ∧ recv (-1) ⟨some [1,2], []⟩ = ⟨.ok [1], some [2], [], []⟩ := by
  constructor
  · exact (C7_no_defensive_checks).1 [9] [] (by decide)
  · rw [(C7_no_defensive_checks).2.2 (-1) ⟨some [1,2], []⟩ (by decide)]
    decide

end ChunkySocket
